import Mathlib

/-!
Shallow embedding of the percent-variance / dimension-selection utility from
the PCA notebook (`Activity-dr-1-sol.ipynb`), together with proofs of the
specified properties.  Vectors are modelled as `List ℚ` (exact arithmetic in
place of IEEE doubles); the NumPy elementwise operations used by the code are
embedded step by step.
-/

namespace PCA

/-- `np.abs` on a single entry: the absolute value. -/
def npAbs (q : ℚ) : ℚ := if q < 0 then -q else q

/-- `np.cumsum` with an explicit running accumulator:
`npCumsumFrom a [x₁, x₂, …] = [a+x₁, a+x₁+x₂, …]`. -/
def npCumsumFrom (acc : ℚ) : List ℚ → List ℚ
  | [] => []
  | x :: xs => (acc + x) :: npCumsumFrom (acc + x) xs

/-- `np.cumsum l`: the running sums of `l`. -/
def npCumsum (l : List ℚ) : List ℚ := npCumsumFrom 0 l

/-- `percvar` from the notebook:
```
def percvar(v):
    s = np.sort(np.abs(v))   -- sort the absolute values ascending
    s = s[::-1]              -- reverse (now descending)
    s = s/np.sum(s)          -- L1-normalize by the sum of the sorted list
    return s, np.cumsum(s)
```
`np.sort` (ascending) is embedded as `List.insertionSort (· ≤ ·)`. -/
def percvar (v : List ℚ) : List ℚ × List ℚ :=
  let s := List.insertionSort (· ≤ ·) (v.map npAbs)
  let s1 := s.reverse
  let s2 := s1.map (fun a => a / s1.sum)
  (s2, npCumsum s2)

/-- `perck` from the notebook:
```
def perck(s, p):
    for i in range(len(s)):
        if s[i] >= p:
            return i+1
    return len(s)
```
The loop with early return becomes structural recursion: the head is tested
first, and if no entry qualifies the accumulated count is the full length. -/
def perck : List ℚ → ℚ → ℕ
  | [], _ => 0
  | x :: xs, p => if p ≤ x then 1 else 1 + perck xs p

/-- IEEE-style value domain for the NumPy float operations: a rational number,
`NaN`, `+inf` or `-inf`.  Needed to model what `s/np.sum(s)` actually produces
when the sum is zero (NumPy yields `nan`/`inf` with a warning; it does not
raise an exception for array division). -/
inductive NpVal where
  | num (q : ℚ)
  | nan
  | inf
  | ninf
deriving DecidableEq

/-- IEEE division of two (finite) floats, as performed elementwise by
`s/np.sum(s)`: division by zero yields `nan` for `0/0` and signed infinity
otherwise; no exception is raised. -/
def npDiv (a b : ℚ) : NpVal :=
  if b = 0 then (if a = 0 then NpVal.nan else if 0 < a then NpVal.inf else NpVal.ninf)
  else NpVal.num (a / b)

/-- IEEE addition on the extended value domain (`nan` propagates,
`inf + (-inf) = nan`), as used by `np.cumsum` on such arrays. -/
def npAdd : NpVal → NpVal → NpVal
  | NpVal.nan, _ => NpVal.nan
  | _, NpVal.nan => NpVal.nan
  | NpVal.inf, NpVal.ninf => NpVal.nan
  | NpVal.ninf, NpVal.inf => NpVal.nan
  | NpVal.inf, _ => NpVal.inf
  | _, NpVal.inf => NpVal.inf
  | NpVal.ninf, _ => NpVal.ninf
  | _, NpVal.ninf => NpVal.ninf
  | NpVal.num a, NpVal.num b => NpVal.num (a + b)

/-- `np.cumsum` on the extended value domain. -/
def npCumsumValFrom (acc : NpVal) : List NpVal → List NpVal
  | [] => []
  | x :: xs => npAdd acc x :: npCumsumValFrom (npAdd acc x) xs

/-- `percvar` embedded with IEEE semantics for the normalization step: the
same code as `percvar`, but the elementwise division is `npDiv`, so a zero
sum produces `nan`/`inf` entries instead of being idealized away.  Every
NumPy operation in the body is total — none of them raises. -/
def percvarNp (v : List ℚ) : List NpVal × List NpVal :=
  let s := List.insertionSort (· ≤ ·) (v.map npAbs)
  let s1 := s.reverse
  let s2 := s1.map (fun a => npDiv a s1.sum)
  (s2, npCumsumValFrom (NpVal.num 0) s2)

/-- Spec-side definition (for the refinement claim about `percvar`): the
absolute values of the entries of `v` sorted in descending order, so that its
`i`-th entry is the `i`-th largest `|v j|`. -/
def absSortedDesc (v : List ℚ) : List ℚ :=
  List.insertionSort (fun a b : ℚ => b ≤ a) (v.map (fun x => |x|))

/-! ### Basic facts about the elementwise operations -/

theorem npAbs_eq_abs (q : ℚ) : npAbs q = |q| := by
  rcases le_or_lt 0 q with h | h
  · rw [npAbs, if_neg (not_lt.2 h), abs_of_nonneg h]
  · rw [npAbs, if_pos h, abs_of_neg h]

theorem npAbs_nonneg (q : ℚ) : 0 ≤ npAbs q := by
  rw [npAbs_eq_abs]; exact abs_nonneg q

theorem npAbs_of_nonneg {q : ℚ} (h : 0 ≤ q) : npAbs q = q := by
  rw [npAbs_eq_abs, abs_of_nonneg h]

theorem npAbs_pos {q : ℚ} (h : q ≠ 0) : 0 < npAbs q := by
  rw [npAbs_eq_abs]; exact abs_pos.2 h

theorem npAbs_mul (a b : ℚ) : npAbs (a * b) = npAbs a * npAbs b := by
  rw [npAbs_eq_abs, npAbs_eq_abs, npAbs_eq_abs, abs_mul]

theorem sum_map_div (l : List ℚ) (c : ℚ) :
    (l.map (fun a => a / c)).sum = l.sum / c := by
  induction l with
  | nil => simp
  | cons x xs ih => simp [ih, add_div]

theorem sum_map_mul (c : ℚ) (l : List ℚ) :
    (l.map (fun a => c * a)).sum = c * l.sum := by
  induction l with
  | nil => simp
  | cons x xs ih => simp [ih, mul_add]

/-! ### Facts about `npCumsum` -/

theorem npCumsumFrom_length (a : ℚ) (l : List ℚ) :
    (npCumsumFrom a l).length = l.length := by
  induction l generalizing a with
  | nil => rfl
  | cons x xs ih => simp [npCumsumFrom, ih]

theorem npCumsum_length (l : List ℚ) : (npCumsum l).length = l.length :=
  npCumsumFrom_length 0 l

theorem npCumsumFrom_getD (l : List ℚ) :
    ∀ (a : ℚ) (i : ℕ), i < l.length →
      (npCumsumFrom a l).getD i 0 = a + (l.take (i + 1)).sum := by
  induction l with
  | nil => intro a i hi; simp at hi
  | cons x xs ih =>
    intro a i hi
    cases i with
    | zero => simp [npCumsumFrom]
    | succ i =>
      have hi' : i < xs.length := by simpa using hi
      simp only [npCumsumFrom, List.getD_cons_succ, List.take_succ_cons,
        List.sum_cons]
      rw [ih (a + x) i hi']
      ring

theorem npCumsum_getD (l : List ℚ) (i : ℕ) (hi : i < l.length) :
    (npCumsum l).getD i 0 = (l.take (i + 1)).sum := by
  rw [npCumsum, npCumsumFrom_getD l 0 i hi, zero_add]

theorem npCumsumFrom_getLast? :
    ∀ (l : List ℚ) (a : ℚ), l ≠ [] →
      (npCumsumFrom a l).getLast? = some (a + l.sum)
  | [], _, h => absurd rfl h
  | [x], a, _ => by simp [npCumsumFrom]
  | x :: y :: xs, a, _ => by
    have ih := npCumsumFrom_getLast? (y :: xs) (a + x) (by simp)
    simp only [npCumsumFrom] at ih ⊢
    rw [List.getLast?_cons_cons, ih]
    congr 1
    simp only [List.sum_cons]
    ring

theorem npCumsum_getLast? (l : List ℚ) (h : l ≠ []) :
    (npCumsum l).getLast? = some l.sum := by
  rw [npCumsum, npCumsumFrom_getLast? l 0 h, zero_add]

theorem npCumsumFrom_le_of_mem :
    ∀ (l : List ℚ) (a : ℚ), (∀ x ∈ l, 0 ≤ x) →
      ∀ y ∈ npCumsumFrom a l, a ≤ y
  | [], _, _, y, hy => by simp [npCumsumFrom] at hy
  | x :: xs, a, h0, y, hy => by
    rcases (by simpa [npCumsumFrom] using hy : y = a + x ∨ y ∈ npCumsumFrom (a + x) xs) with
      rfl | hmem
    · exact le_add_of_nonneg_right (h0 x (by simp))
    · exact le_trans (le_add_of_nonneg_right (h0 x (by simp)))
        (npCumsumFrom_le_of_mem xs (a + x) (fun z hz => h0 z (by simp [hz])) y hmem)

theorem npCumsumFrom_pairwise_le :
    ∀ (l : List ℚ) (a : ℚ), (∀ x ∈ l, 0 ≤ x) →
      List.Pairwise (· ≤ ·) (npCumsumFrom a l)
  | [], _, _ => List.Pairwise.nil
  | x :: xs, a, h0 => by
    simp only [npCumsumFrom, List.pairwise_cons]
    exact ⟨npCumsumFrom_le_of_mem xs (a + x) (fun z hz => h0 z (by simp [hz])),
      npCumsumFrom_pairwise_le xs (a + x) (fun z hz => h0 z (by simp [hz]))⟩

theorem npCumsumFrom_lt_of_mem :
    ∀ (l : List ℚ) (a : ℚ), (∀ x ∈ l, 0 < x) →
      ∀ y ∈ npCumsumFrom a l, a < y
  | [], _, _, y, hy => by simp [npCumsumFrom] at hy
  | x :: xs, a, h0, y, hy => by
    rcases (by simpa [npCumsumFrom] using hy : y = a + x ∨ y ∈ npCumsumFrom (a + x) xs) with
      rfl | hmem
    · exact lt_add_of_pos_right a (h0 x (by simp))
    · exact lt_trans (lt_add_of_pos_right a (h0 x (by simp)))
        (npCumsumFrom_lt_of_mem xs (a + x) (fun z hz => h0 z (by simp [hz])) y hmem)

theorem npCumsumFrom_pairwise_lt :
    ∀ (l : List ℚ) (a : ℚ), (∀ x ∈ l, 0 < x) →
      List.Pairwise (· < ·) (npCumsumFrom a l)
  | [], _, _ => List.Pairwise.nil
  | x :: xs, a, h0 => by
    simp only [npCumsumFrom, List.pairwise_cons]
    exact ⟨npCumsumFrom_lt_of_mem xs (a + x) (fun z hz => h0 z (by simp [hz])),
      npCumsumFrom_pairwise_lt xs (a + x) (fun z hz => h0 z (by simp [hz]))⟩

/-! ### Facts about `perck` -/

theorem perck_le_length (s : List ℚ) (p : ℚ) : perck s p ≤ s.length := by
  induction s with
  | nil => simp [perck]
  | cons x xs ih =>
    by_cases h : p ≤ x
    · simp [perck, h]
    · simp only [perck, if_neg h, List.length_cons]
      omega

theorem perck_min (s : List ℚ) (p : ℚ) :
    ∀ i, i < s.length → p ≤ s.getD i 0 → perck s p ≤ i + 1 := by
  induction s with
  | nil => intro i hi; simp at hi
  | cons x xs ih =>
    intro i hi hget
    by_cases h : p ≤ x
    · simp only [perck, if_pos h]; omega
    · cases i with
      | zero => simp only [List.getD_cons_zero] at hget; exact absurd hget h
      | succ i =>
        simp only [perck, if_neg h]
        have := ih i (by simpa using hi) (by simpa using hget)
        omega

theorem perck_hit (s : List ℚ) (p : ℚ) :
    (∃ i, i < s.length ∧ p ≤ s.getD i 0) →
      perck s p - 1 < s.length ∧ p ≤ s.getD (perck s p - 1) 0 ∧ 1 ≤ perck s p := by
  induction s with
  | nil => intro ⟨i, hi, _⟩; simp at hi
  | cons x xs ih =>
    intro ⟨i, hi, hget⟩
    by_cases h : p ≤ x
    · refine ⟨?_, ?_, ?_⟩ <;> simp [perck, h]
    · have hi' : ∃ j, j < xs.length ∧ p ≤ xs.getD j 0 := by
        cases i with
        | zero => simp only [List.getD_cons_zero] at hget; exact absurd hget h
        | succ i => exact ⟨i, by simpa using hi, by simpa using hget⟩
      obtain ⟨h1, h2, h3⟩ := ih hi'
      simp only [perck, if_neg h, List.length_cons]
      refine ⟨by omega, ?_, by omega⟩
      have : 1 + perck xs p - 1 = (perck xs p - 1) + 1 := by omega
      rw [this, List.getD_cons_succ]
      exact h2

theorem perck_none (s : List ℚ) (p : ℚ) :
    (∀ i, i < s.length → s.getD i 0 < p) → perck s p = s.length := by
  induction s with
  | nil => intro _; rfl
  | cons x xs ih =>
    intro hall
    have hx : x < p := by simpa using hall 0 (by simp)
    simp only [perck, if_neg (not_le.2 hx), List.length_cons]
    rw [ih (fun i hi => by simpa using hall (i + 1) (by simpa using hi))]
    omega

theorem perck_eq_of_first (s : List ℚ) (p : ℚ) :
    ∀ k, k < s.length → p ≤ s.getD k 0 → (∀ j, j < k → s.getD j 0 < p) →
      perck s p = k + 1 := by
  induction s with
  | nil => intro k hk; simp at hk
  | cons x xs ih =>
    intro k hk hget hlt
    cases k with
    | zero =>
      simp only [List.getD_cons_zero] at hget
      simp [perck, hget]
    | succ k =>
      have hx : x < p := by simpa using hlt 0 (by omega)
      simp only [perck, if_neg (not_le.2 hx)]
      rw [ih k (by simpa using hk) (by simpa using hget)
        (fun j hj => by simpa using hlt (j + 1) (by omega))]
      omega

theorem perck_mono (s : List ℚ) (p1 p2 : ℚ) (h : p1 ≤ p2) :
    perck s p1 ≤ perck s p2 := by
  induction s with
  | nil => simp [perck]
  | cons x xs ih =>
    by_cases h2 : p2 ≤ x
    · have h1 : p1 ≤ x := le_trans h h2
      simp [perck, h1, h2]
    · by_cases h1 : p1 ≤ x
      · simp only [perck, if_pos h1, if_neg h2]; omega
      · simp only [perck, if_neg h1, if_neg h2]; omega

/-! ### The sorted list of absolute values inside `percvar` -/

/-- The list built by the first three lines of `percvar`
(`np.sort(np.abs(v))` followed by `[::-1]`). -/
def sortDescAbs (v : List ℚ) : List ℚ :=
  (List.insertionSort (· ≤ ·) (v.map npAbs)).reverse

theorem percvar_fst (v : List ℚ) :
    (percvar v).1 = (sortDescAbs v).map (fun a => a / (sortDescAbs v).sum) := rfl

theorem percvar_snd (v : List ℚ) :
    (percvar v).2 = npCumsum ((percvar v).1) := rfl

theorem sortDescAbs_perm (v : List ℚ) : List.Perm (sortDescAbs v) (v.map npAbs) :=
  (List.reverse_perm _).trans (List.perm_insertionSort _ _)

theorem sortDescAbs_length (v : List ℚ) : (sortDescAbs v).length = v.length := by
  rw [(sortDescAbs_perm v).length_eq, List.length_map]

theorem sortDescAbs_sum (v : List ℚ) :
    (sortDescAbs v).sum = (v.map npAbs).sum :=
  (sortDescAbs_perm v).sum_eq

theorem sortDescAbs_nonneg (v : List ℚ) : ∀ x ∈ sortDescAbs v, 0 ≤ x := by
  intro x hx
  have : x ∈ v.map npAbs := (sortDescAbs_perm v).mem_iff.1 hx
  obtain ⟨y, _, rfl⟩ := List.mem_map.1 this
  exact npAbs_nonneg y

theorem sortDescAbs_sorted (v : List ℚ) :
    List.Sorted (· ≥ ·) (sortDescAbs v) := by
  have h := List.sorted_insertionSort (· ≤ ·) (v.map npAbs)
  exact List.pairwise_reverse.2 h

theorem map_npAbs_eq_map_abs (v : List ℚ) :
    v.map npAbs = v.map (fun x => |x|) :=
  List.map_congr_left (fun x _ => npAbs_eq_abs x)

/-- `sortDescAbs` agrees with the spec-side descending sort of the absolute
values: the `i`-th entry of the reversed ascending sort is the `i`-th largest
absolute value. -/
theorem sortDescAbs_eq_absSortedDesc (v : List ℚ) :
    sortDescAbs v = absSortedDesc v := by
  apply List.eq_of_perm_of_sorted
    (r := fun a b : ℚ => a ≥ b)
  · exact (sortDescAbs_perm v).trans
      (by rw [map_npAbs_eq_map_abs]
          exact (List.perm_insertionSort _ _).symm)
  · exact sortDescAbs_sorted v
  · exact List.sorted_insertionSort _ _

/-! ### Derived facts about the outputs of `percvar` -/

theorem npAbs_sum_nonneg (v : List ℚ) : 0 ≤ (v.map npAbs).sum :=
  List.sum_nonneg (fun x hx => by
    obtain ⟨y, _, rfl⟩ := List.mem_map.1 hx
    exact npAbs_nonneg y)

theorem abs_sum_ne_zero_of_mem {v : List ℚ} {x : ℚ} (hx : x ∈ v) (hxne : x ≠ 0) :
    (v.map (fun y => |y|)).sum ≠ 0 := by
  have habs : |x| ∈ v.map (fun y => |y|) := List.mem_map.2 ⟨x, hx, rfl⟩
  have hnn : ∀ a ∈ v.map (fun y => |y|), 0 ≤ a := by
    intro a ha
    obtain ⟨y, _, rfl⟩ := List.mem_map.1 ha
    exact abs_nonneg y
  exact ne_of_gt (lt_of_lt_of_le (abs_pos.2 hxne) (List.single_le_sum hnn _ habs))

theorem sortDescAbs_sum_nonneg (v : List ℚ) : 0 ≤ (sortDescAbs v).sum := by
  rw [sortDescAbs_sum]; exact npAbs_sum_nonneg v

theorem sortDescAbs_sum_ne_zero (v : List ℚ)
    (hS : (v.map (fun x => |x|)).sum ≠ 0) : (sortDescAbs v).sum ≠ 0 := by
  rw [sortDescAbs_sum, map_npAbs_eq_map_abs]; exact hS

theorem percvar_fst_length (v : List ℚ) : (percvar v).1.length = v.length := by
  rw [percvar_fst, List.length_map, sortDescAbs_length]

theorem percvar_snd_length (v : List ℚ) : (percvar v).2.length = v.length := by
  rw [percvar_snd, npCumsum_length, percvar_fst_length]

theorem percvar_fst_nonneg (v : List ℚ) : ∀ x ∈ (percvar v).1, 0 ≤ x := by
  intro x hx
  rw [percvar_fst] at hx
  obtain ⟨a, ha, rfl⟩ := List.mem_map.1 hx
  exact div_nonneg (sortDescAbs_nonneg v a ha) (sortDescAbs_sum_nonneg v)

theorem percvar_fst_sum (v : List ℚ) (hS : (v.map (fun x => |x|)).sum ≠ 0) :
    (percvar v).1.sum = 1 := by
  rw [percvar_fst, sum_map_div]
  exact div_self (sortDescAbs_sum_ne_zero v hS)

theorem percvar_fst_sorted (v : List ℚ) :
    List.Sorted (· ≥ ·) (percvar v).1 := by
  rw [percvar_fst]
  refine List.Pairwise.map _ ?_ (sortDescAbs_sorted v)
  intro a b hab
  rw [ge_iff_le, div_eq_mul_inv, div_eq_mul_inv]
  exact mul_le_mul_of_nonneg_right hab (inv_nonneg.2 (sortDescAbs_sum_nonneg v))

theorem percvar_fst_pos (v : List ℚ) (hv : v ≠ []) (hall : ∀ x ∈ v, x ≠ 0) :
    ∀ x ∈ (percvar v).1, 0 < x := by
  intro x hx
  rw [percvar_fst] at hx
  obtain ⟨a, ha, rfl⟩ := List.mem_map.1 hx
  have hmem : a ∈ v.map npAbs := (sortDescAbs_perm v).mem_iff.1 ha
  obtain ⟨y, hy, rfl⟩ := List.mem_map.1 hmem
  have hapos : 0 < npAbs y := npAbs_pos (hall y hy)
  have hSpos : 0 < (sortDescAbs v).sum := by
    apply List.sum_pos
    · intro z hz
      have : z ∈ v.map npAbs := (sortDescAbs_perm v).mem_iff.1 hz
      obtain ⟨w, hw, rfl⟩ := List.mem_map.1 this
      exact npAbs_pos (hall w hw)
    · intro hnil
      apply hv
      have := sortDescAbs_length v
      rw [hnil] at this
      exact List.eq_nil_of_length_eq_zero this.symm
  exact div_pos hapos hSpos

/-! ### Sorting commutes with scaling by a positive constant -/

theorem insertionSort_map_mul (l : List ℚ) (d : ℚ) (hd : 0 < d) :
    List.insertionSort (· ≤ ·) (l.map (fun a => d * a)) =
      (List.insertionSort (· ≤ ·) l).map (fun a => d * a) := by
  apply List.eq_of_perm_of_sorted (r := fun a b : ℚ => a ≤ b)
  · exact (List.perm_insertionSort _ _).trans
      (((List.perm_insertionSort _ l).symm).map _)
  · exact List.sorted_insertionSort _ _
  · refine List.Pairwise.map _ ?_ (List.sorted_insertionSort _ l)
    intro a b hab
    exact mul_le_mul_of_nonneg_left hab (le_of_lt hd)

theorem sortDescAbs_map_mul (v : List ℚ) (c : ℚ) (hc : c ≠ 0) :
    sortDescAbs (v.map (fun x => c * x)) =
      (sortDescAbs v).map (fun a => npAbs c * a) := by
  have h1 : (v.map (fun x => c * x)).map npAbs =
      (v.map npAbs).map (fun a => npAbs c * a) := by
    rw [List.map_map, List.map_map]
    exact List.map_congr_left (fun x _ => npAbs_mul c x)
  rw [sortDescAbs, h1, insertionSort_map_mul _ _ (npAbs_pos hc), sortDescAbs,
    List.map_reverse]

/-! ### Sorting a descending-sorted non-negative list -/

theorem insertionSort_of_sorted_ge (l : List ℚ) (h : List.Sorted (· ≥ ·) l) :
    List.insertionSort (· ≤ ·) l = l.reverse := by
  apply List.eq_of_perm_of_sorted (r := fun a b : ℚ => a ≤ b)
  · exact (List.perm_insertionSort _ _).trans (List.reverse_perm l).symm
  · exact List.sorted_insertionSort _ _
  · exact List.pairwise_reverse.2 h

theorem getD_map_div (l : List ℚ) (c : ℚ) (i : ℕ) (hi : i < l.length) :
    (l.map (fun a => a / c)).getD i 0 = l.getD i 0 / c := by
  induction l generalizing i with
  | nil => simp at hi
  | cons x xs ih =>
    cases i with
    | zero => simp
    | succ i => simpa using ih i (by simpa using hi)

/-! ### The claims -/

/-- C1: for every non-empty `v` whose absolute values have nonzero sum,
`percvar v = (percents, cumulative)` where both outputs have the length of
`v`, `percents[i]` is the `i`-th largest `|v j|` divided by the sum of all
`|v j|`, and `cumulative[i] = percents[0] + ⋯ + percents[i]`. -/
theorem C1_percvar_contract (v : List ℚ) (hv : v ≠ [])
    (hS : (v.map (fun x => |x|)).sum ≠ 0) :
    (percvar v).1.length = v.length ∧ (percvar v).2.length = v.length ∧
    (∀ i, i < v.length →
      (percvar v).1.getD i 0 =
        (absSortedDesc v).getD i 0 / (v.map (fun x => |x|)).sum) ∧
    (∀ i, i < v.length →
      (percvar v).2.getD i 0 = ((percvar v).1.take (i + 1)).sum) := by
  refine ⟨percvar_fst_length v, percvar_snd_length v, ?_, ?_⟩
  · intro i hi
    rw [percvar_fst, getD_map_div _ _ i (by rw [sortDescAbs_length]; exact hi),
      sortDescAbs_sum, map_npAbs_eq_map_abs, sortDescAbs_eq_absSortedDesc]
  · intro i hi
    rw [percvar_snd, npCumsum_getD _ i (by rw [percvar_fst_length]; exact hi)]

theorem C1_witness :
    (([(3:ℚ), -1] : List ℚ) ≠ [] ∧
      (([(3:ℚ), -1] : List ℚ).map (fun x => |x|)).sum ≠ 0) ∧
    ((percvar [(3:ℚ), -1]).1.length = ([(3:ℚ), -1] : List ℚ).length ∧
     (percvar [(3:ℚ), -1]).2.length = ([(3:ℚ), -1] : List ℚ).length ∧
     (∀ i, i < ([(3:ℚ), -1] : List ℚ).length →
       (percvar [(3:ℚ), -1]).1.getD i 0 =
         (absSortedDesc [(3:ℚ), -1]).getD i 0 /
           (([(3:ℚ), -1] : List ℚ).map (fun x => |x|)).sum) ∧
     (∀ i, i < ([(3:ℚ), -1] : List ℚ).length →
       (percvar [(3:ℚ), -1]).2.getD i 0 =
         ((percvar [(3:ℚ), -1]).1.take (i + 1)).sum)) :=
  ⟨⟨by simp, by norm_num⟩,
    C1_percvar_contract [(3:ℚ), -1] (by simp) (by norm_num)⟩

/-- C2: for every vector `s` and target `p ∈ [0,1]`, `perck s p` is the
smallest 1-based index `k` with `s[k-1] ≥ p` (inclusive bound, so the first
index satisfying `≥ p` is selected at exact equality), and when no index
qualifies `perck s p` is the full length of `s`. -/
theorem C2_perck_contract (s : List ℚ) (p : ℚ) (hp0 : 0 ≤ p) (hp1 : p ≤ 1) :
    (∀ i, i < s.length → p ≤ s.getD i 0 → perck s p ≤ i + 1) ∧
    ((∃ i, i < s.length ∧ p ≤ s.getD i 0) →
      perck s p - 1 < s.length ∧ p ≤ s.getD (perck s p - 1) 0 ∧
        1 ≤ perck s p) ∧
    ((∀ i, i < s.length → s.getD i 0 < p) → perck s p = s.length) :=
  ⟨perck_min s p, perck_hit s p, perck_none s p⟩

theorem C2_witness :
    ((0:ℚ) ≤ 3/4 ∧ (3/4:ℚ) ≤ 1) ∧
    ((∀ i, i < ([(1:ℚ)/2, 1] : List ℚ).length →
        (3/4:ℚ) ≤ ([(1:ℚ)/2, 1] : List ℚ).getD i 0 →
        perck [(1:ℚ)/2, 1] (3/4) ≤ i + 1) ∧
     ((∃ i, i < ([(1:ℚ)/2, 1] : List ℚ).length ∧
        (3/4:ℚ) ≤ ([(1:ℚ)/2, 1] : List ℚ).getD i 0) →
       perck [(1:ℚ)/2, 1] (3/4) - 1 < ([(1:ℚ)/2, 1] : List ℚ).length ∧
       (3/4:ℚ) ≤ ([(1:ℚ)/2, 1] : List ℚ).getD (perck [(1:ℚ)/2, 1] (3/4) - 1) 0 ∧
       1 ≤ perck [(1:ℚ)/2, 1] (3/4)) ∧
     ((∀ i, i < ([(1:ℚ)/2, 1] : List ℚ).length →
        ([(1:ℚ)/2, 1] : List ℚ).getD i 0 < (3/4:ℚ)) →
       perck [(1:ℚ)/2, 1] (3/4) = ([(1:ℚ)/2, 1] : List ℚ).length)) :=
  ⟨⟨by norm_num, by norm_num⟩,
    C2_perck_contract [(1:ℚ)/2, 1] (3/4) (by norm_num) (by norm_num)⟩

/-- The eigenvalue vector of the wine-dataset worked example, rounded to two
decimals as quoted in the spec's concrete scenario. -/
def wineV : List ℚ :=
  [473/100, 251/100, 145/100, 92/100, 86/100, 65/100, 55/100, 10/100,
   35/100, 17/100, 29/100, 23/100, 25/100]

set_option maxHeartbeats 2000000 in
/-- C9: on the concrete vector of the worked example, the cumulative output
of `percvar` selects 5 dimensions for an 80% variance target and 10
dimensions for a 95% target. -/
theorem C9_wine_scenario :
    perck (percvar wineV).2 (80/100) = 5 ∧
      perck (percvar wineV).2 (95/100) = 10 := by
  norm_num [wineV, percvar, perck, npAbs, npCumsum, npCumsumFrom]

/-- C10: `perck` is monotone in the target, and the fallback value
`s.length` is an upper bound on every result for that vector. -/
theorem C10_perck_monotone (s : List ℚ) (p1 p2 : ℚ) (h : p1 ≤ p2) :
    perck s p1 ≤ perck s p2 ∧ ∀ q : ℚ, perck s q ≤ s.length :=
  ⟨perck_mono s p1 p2 h, fun q => perck_le_length s q⟩

theorem C10_witness :
    (0:ℚ) ≤ 1 ∧
    (perck [(1:ℚ)/2] 0 ≤ perck [(1:ℚ)/2] 1 ∧
      ∀ q : ℚ, perck [(1:ℚ)/2] q ≤ ([(1:ℚ)/2] : List ℚ).length) :=
  ⟨by norm_num, C10_perck_monotone [(1:ℚ)/2] 0 1 (by norm_num)⟩

/-- C3: for every non-empty `v` with at least one non-zero entry, the
percents output of `percvar` sums to 1, has non-negative entries and is
sorted descending, and the cumulative output is non-decreasing with final
entry 1. -/
theorem C3_percvar_invariants (v : List ℚ) (hv : v ≠ [])
    (hnz : ∃ x ∈ v, x ≠ 0) :
    (percvar v).1.sum = 1 ∧ (∀ x ∈ (percvar v).1, 0 ≤ x) ∧
    List.Sorted (· ≥ ·) (percvar v).1 ∧
    List.Sorted (· ≤ ·) (percvar v).2 ∧
    (percvar v).2.getLast? = some 1 := by
  obtain ⟨x, hx, hxne⟩ := hnz
  have hS : (v.map (fun y => |y|)).sum ≠ 0 := abs_sum_ne_zero_of_mem hx hxne
  have hne : (percvar v).1 ≠ [] := by
    intro h
    apply hv
    have := percvar_fst_length v
    rw [h] at this
    exact List.eq_nil_of_length_eq_zero this.symm
  refine ⟨percvar_fst_sum v hS, percvar_fst_nonneg v, percvar_fst_sorted v,
    ?_, ?_⟩
  · rw [percvar_snd, npCumsum]
    exact npCumsumFrom_pairwise_le _ 0 (percvar_fst_nonneg v)
  · rw [percvar_snd, npCumsum_getLast? _ hne, percvar_fst_sum v hS]

theorem C3_witness :
    (([(3:ℚ), -1] : List ℚ) ≠ [] ∧ ∃ x ∈ [(3:ℚ), -1], x ≠ 0) ∧
    ((percvar [(3:ℚ), -1]).1.sum = 1 ∧
     (∀ x ∈ (percvar [(3:ℚ), -1]).1, 0 ≤ x) ∧
     List.Sorted (· ≥ ·) (percvar [(3:ℚ), -1]).1 ∧
     List.Sorted (· ≤ ·) (percvar [(3:ℚ), -1]).2 ∧
     (percvar [(3:ℚ), -1]).2.getLast? = some 1) :=
  ⟨⟨by simp, ⟨3, by norm_num, by norm_num⟩⟩,
    C3_percvar_invariants [(3:ℚ), -1] (by simp) ⟨3, by norm_num, by norm_num⟩⟩

/-- C4: for a non-empty `v` with nonzero sum of absolute values and any
nonzero scalar `c`, `percvar (c * v)` and `percvar v` coincide (both
components). -/
theorem C4_percvar_scale_invariant (v : List ℚ) (c : ℚ) (hv : v ≠ [])
    (hS : (v.map (fun x => |x|)).sum ≠ 0) (hc : c ≠ 0) :
    percvar (v.map (fun x => c * x)) = percvar v := by
  have hd : (0:ℚ) < npAbs c := npAbs_pos hc
  have hfst : (percvar (v.map (fun x => c * x))).1 = (percvar v).1 := by
    rw [percvar_fst, percvar_fst, sortDescAbs_map_mul v c hc, sum_map_mul,
      List.map_map]
    apply List.map_congr_left
    intro a _
    simp only [Function.comp_apply]
    exact mul_div_mul_left a (sortDescAbs v).sum (ne_of_gt hd)
  apply Prod.ext
  · exact hfst
  · rw [percvar_snd, percvar_snd, hfst]

theorem C4_witness :
    (([(1:ℚ), -2] : List ℚ) ≠ [] ∧
      (([(1:ℚ), -2] : List ℚ).map (fun x => |x|)).sum ≠ 0 ∧ (-3:ℚ) ≠ 0) ∧
    percvar (([(1:ℚ), -2] : List ℚ).map (fun x => (-3:ℚ) * x)) =
      percvar [(1:ℚ), -2] :=
  ⟨⟨by simp, by norm_num, by norm_num⟩,
    C4_percvar_scale_invariant [(1:ℚ), -2] (-3) (by simp) (by norm_num)
      (by norm_num)⟩

/-- C5 counterexample: the claim says `percvar` fails with an
InvalidInput-class error on the empty vector.  In the code there is no
validation and no operation that can raise on this input: `np.sort`,
slicing, `np.sum` and `np.cumsum` are total, and the elementwise division
of an empty array performs no arithmetic at all.  Evaluating the embedding
(with IEEE semantics for the division step) at `[]` yields the normal
return value `([], [])`, not an error of any class. -/
theorem C5_counterexample : percvarNp [] = ([], []) := rfl

/-- C5 amended: `percvar` raises no error on the empty vector; it returns
the pair of two empty vectors. -/
theorem C5_percvar_empty : percvar [] = ([], []) := rfl

/-- C6 counterexample: the claim says `percvar` fails with a
DivisionByZero-class error on a non-empty all-zero vector.  NumPy's
elementwise float division does not raise on a zero denominator: `0.0/0.0`
evaluates to `nan` (with a runtime warning only).  Evaluating the embedding
with IEEE semantics at the all-zero vector `[0]` yields the normal return
value `([nan], [nan])`, not an error. -/
theorem C6_counterexample : percvarNp [0] = ([NpVal.nan], [NpVal.nan]) := by
  norm_num [percvarNp, npAbs, npDiv, npAdd, npCumsumValFrom]

theorem npAdd_nan (x : NpVal) : npAdd x NpVal.nan = NpVal.nan := by
  cases x <;> rfl

theorem npCumsumValFrom_replicate_nan :
    ∀ (n : ℕ) (acc : NpVal),
      npCumsumValFrom acc (List.replicate n NpVal.nan) =
        List.replicate n NpVal.nan
  | 0, _ => rfl
  | n + 1, acc => by
    simp only [List.replicate_succ, npCumsumValFrom, npAdd_nan]
    rw [npCumsumValFrom_replicate_nan n NpVal.nan]

theorem insertionSort_replicate (n : ℕ) (a : ℚ) :
    List.insertionSort (· ≤ ·) (List.replicate n a) = List.replicate n a := by
  apply List.eq_of_perm_of_sorted (r := fun x y : ℚ => x ≤ y)
  · exact List.perm_insertionSort _ _
  · exact List.sorted_insertionSort _ _
  · exact List.pairwise_replicate.2 (Or.inr (le_refl a))

/-- C6 amended: on a non-empty all-zero vector, `percvar` returns normally:
every entry of both outputs is the IEEE `nan` produced by the `0/0`
normalization (NumPy emits a warning, not an exception). -/
theorem C6_percvar_all_zero (v : List ℚ) (hv : v ≠ []) (hz : ∀ x ∈ v, x = 0) :
    (percvarNp v).1 = List.replicate v.length NpVal.nan ∧
    (percvarNp v).2 = List.replicate v.length NpVal.nan := by
  have hmap : v.map npAbs = List.replicate v.length 0 := by
    rw [List.eq_replicate_iff]
    refine ⟨by simp, ?_⟩
    intro b hb
    obtain ⟨y, hy, rfl⟩ := List.mem_map.1 hb
    rw [hz y hy]
    rfl
  have hfst : (percvarNp v).1 = List.replicate v.length NpVal.nan := by
    show ((List.insertionSort (· ≤ ·) (v.map npAbs)).reverse.map
        (fun a => npDiv a (List.insertionSort (· ≤ ·) (v.map npAbs)).reverse.sum))
      = List.replicate v.length NpVal.nan
    rw [hmap, insertionSort_replicate, List.reverse_replicate,
      List.sum_replicate, List.map_replicate]
    norm_num [npDiv]
  refine ⟨hfst, ?_⟩
  show npCumsumValFrom (NpVal.num 0) ((percvarNp v).1) =
    List.replicate v.length NpVal.nan
  rw [hfst, npCumsumValFrom_replicate_nan]

theorem C6_witness :
    (([(0:ℚ), 0] : List ℚ) ≠ [] ∧ ∀ x ∈ [(0:ℚ), 0], x = 0) ∧
    ((percvarNp [(0:ℚ), 0]).1 =
        List.replicate ([(0:ℚ), 0] : List ℚ).length NpVal.nan ∧
     (percvarNp [(0:ℚ), 0]).2 =
        List.replicate ([(0:ℚ), 0] : List ℚ).length NpVal.nan) :=
  ⟨⟨by simp, by norm_num⟩,
    C6_percvar_all_zero [(0:ℚ), 0] (by simp) (by norm_num)⟩

/-- C7 counterexample: at `v = [1, 0]` (non-empty, with a non-zero entry)
the percents vector is `[1, 0]` and the cumulative vector is `[1, 1]`, so
`perck cumulative 1 = 1`, not `n = 2` as the claim asserts. -/
theorem C7_counterexample :
    perck (percvar [(1:ℚ), 0]).2 1 ≠ ([(1:ℚ), 0] : List ℚ).length := by
  norm_num [percvar, perck, npAbs, npCumsum, npCumsumFrom]

/-- C7 amended: for every non-empty `v` all of whose entries are non-zero,
`perck cumulative 0 = 1` and `perck cumulative 1 = n`.  (When `v` has a zero
entry the cumulative vector reaches 1 early and `perck cumulative 1`
returns the number of non-zero entries instead of `n`.) -/
theorem C7_perck_extremes (v : List ℚ) (hv : v ≠ [])
    (hall : ∀ x ∈ v, x ≠ 0) :
    perck (percvar v).2 0 = 1 ∧ perck (percvar v).2 1 = v.length := by
  obtain ⟨x, hx⟩ := List.exists_mem_of_ne_nil v hv
  have hS : (v.map (fun y => |y|)).sum ≠ 0 :=
    abs_sum_ne_zero_of_mem hx (hall x hx)
  have hpos : ∀ y ∈ (percvar v).1, 0 < y := percvar_fst_pos v hv hall
  have hn : 0 < v.length := List.length_pos.2 hv
  have hlen1 : (percvar v).1.length = v.length := percvar_fst_length v
  have hlen2 : (percvar v).2.length = v.length := percvar_snd_length v
  have hcm : ∀ i, i < v.length →
      (percvar v).2.getD i 0 = ((percvar v).1.take (i + 1)).sum := by
    intro i hi
    rw [percvar_snd, npCumsum_getD _ i (by rw [hlen1]; exact hi)]
  constructor
  · have h0 := perck_eq_of_first (percvar v).2 0 0 (by rw [hlen2]; exact hn)
      (by rw [hcm 0 hn]
          apply List.sum_nonneg
          intro y hy
          exact le_of_lt (hpos y (List.mem_of_mem_take hy)))
      (fun j hj => absurd hj (Nat.not_lt_zero j))
    omega
  · have htake_lt : ∀ j, j + 1 < v.length →
        ((percvar v).1.take (j + 1)).sum < 1 := by
      intro j hj
      have hsplit : ((percvar v).1.take (j + 1)).sum +
          ((percvar v).1.drop (j + 1)).sum = 1 := by
        rw [← List.sum_append, List.take_append_drop, percvar_fst_sum v hS]
      have hdrop_pos : 0 < ((percvar v).1.drop (j + 1)).sum := by
        apply List.sum_pos
        · intro z hz
          exact hpos z (List.mem_of_mem_drop hz)
        · intro hnil
          have hdl : (percvar v).1.length - (j + 1) = 0 := by
            rw [← List.length_drop, hnil]
            rfl
          rw [hlen1] at hdl
          omega
      linarith
    have hfull : ((percvar v).1.take v.length).sum = 1 := by
      have ht : (percvar v).1.take v.length = (percvar v).1 := by
        rw [← hlen1]
        exact List.take_length _
      rw [ht, percvar_fst_sum v hS]
    have hget : (1:ℚ) ≤ (percvar v).2.getD (v.length - 1) 0 := by
      rw [hcm _ (by omega)]
      have h1 : v.length - 1 + 1 = v.length := by omega
      rw [h1, hfull]
    have hbefore : ∀ j, j < v.length - 1 → (percvar v).2.getD j 0 < 1 := by
      intro j hj
      rw [hcm _ (by omega)]
      exact htake_lt j (by omega)
    have hres := perck_eq_of_first (percvar v).2 1 (v.length - 1)
      (by rw [hlen2]; omega) hget hbefore
    omega

theorem C7_witness :
    (([(1:ℚ), 2] : List ℚ) ≠ [] ∧ ∀ x ∈ [(1:ℚ), 2], x ≠ 0) ∧
    (perck (percvar [(1:ℚ), 2]).2 0 = 1 ∧
      perck (percvar [(1:ℚ), 2]).2 1 = ([(1:ℚ), 2] : List ℚ).length) :=
  ⟨⟨by simp, by norm_num⟩,
    C7_perck_extremes [(1:ℚ), 2] (by simp) (by norm_num)⟩

/-- C8: for a non-empty `v` with nonzero sum of absolute values, applying
`percvar` to the percents vector it returned is a no-op on the percents
component: the list is already non-negative, sorted descending and
L1-normalized, so the transform returns it unchanged. -/
theorem C8_percvar_idempotent (v : List ℚ) (hv : v ≠ [])
    (hS : (v.map (fun x => |x|)).sum ≠ 0) :
    (percvar ((percvar v).1)).1 = (percvar v).1 := by
  have hnn : ∀ x ∈ (percvar v).1, 0 ≤ x := percvar_fst_nonneg v
  have hsorted : List.Sorted (· ≥ ·) (percvar v).1 := percvar_fst_sorted v
  have hsum : (percvar v).1.sum = 1 := percvar_fst_sum v hS
  have h1 : (percvar v).1.map npAbs = (percvar v).1 := by
    have h := List.map_congr_left (l := (percvar v).1) (f := npAbs) (g := id)
      (fun x hx => npAbs_of_nonneg (hnn x hx))
    rw [h, List.map_id]
  have h2 : sortDescAbs ((percvar v).1) = (percvar v).1 := by
    simp only [sortDescAbs]
    rw [h1, insertionSort_of_sorted_ge _ hsorted, List.reverse_reverse]
  rw [percvar_fst ((percvar v).1), h2, hsum]
  rw [List.map_congr_left (g := id) (fun a _ => div_one a), List.map_id]

theorem C8_witness :
    (([(3:ℚ), -1] : List ℚ) ≠ [] ∧
      (([(3:ℚ), -1] : List ℚ).map (fun x => |x|)).sum ≠ 0) ∧
    (percvar ((percvar [(3:ℚ), -1]).1)).1 = (percvar [(3:ℚ), -1]).1 :=
  ⟨⟨by simp, by norm_num⟩,
    C8_percvar_idempotent [(3:ℚ), -1] (by simp) (by norm_num)⟩

end PCA
